import Mathlib

/-!
Verification of the planar Ising partition-function core
(`savanna/partition.py`) and the steepest-descent sampler seed validation
(`dwave/samplers/greedy/sampler.py`).

The numeric pipeline is embedded over exact rationals.  The source's
`scipy.linalg.lu` call is modelled by Gaussian elimination with partial
pivoting (largest absolute pivot, first occurrence), which produces the
same diagonal of `U` that the source reads off.  Floating-point log
arithmetic is represented symbolically by `LogVal`: the source computes
`0.5 * sum(log(abs(diag(U))))`, which is `-inf` exactly when some pivot
is zero and otherwise `0.5 * log` of the product of the absolute pivots.
-/

namespace Savanna

/-- Row swap of a square matrix, exchanging rows `k` and `r`. -/
def rowSwap {n : ℕ} (M : Matrix (Fin n) (Fin n) ℚ) (k r : Fin n) :
    Matrix (Fin n) (Fin n) ℚ :=
  M.submatrix (Equiv.swap k r) id

/-- Fold selecting, among a candidate list of rows, one whose entry in
column `k` has maximal absolute value (first occurrence wins ties). -/
def pivotFold {n : ℕ} (M : Matrix (Fin n) (Fin n) ℚ) (k : Fin n)
    (b : Fin n) (l : List (Fin n)) : Fin n :=
  l.foldl (fun best r => if |M best k| < |M r k| then r else best) b

/-- Partial pivoting: the row index `r ≥ k` maximizing `|M r k|`,
as LAPACK `getrf` (used by `scipy.linalg.lu`) selects it. -/
def pivotRow {n : ℕ} (M : Matrix (Fin n) (Fin n) ℚ) (k : Fin n) : Fin n :=
  pivotFold M k k ((List.finRange n).filter fun r => k ≤ r)

/-- One column of Gaussian elimination: clear the entries below the
diagonal in column `k` by subtracting multiples of row `k`. -/
def elimCol {n : ℕ} (M : Matrix (Fin n) (Fin n) ℚ) (k : Fin n) :
    Matrix (Fin n) (Fin n) ℚ :=
  Matrix.of fun i j => if k < i then M i j - M i k / M k k * M k j else M i j

/-- The strictly-lower elimination coefficients of `elimCol` as a matrix,
so that `elimCol M k = (1 + elimMat M k) * M`. -/
def elimMat {n : ℕ} (M : Matrix (Fin n) (Fin n) ℚ) (k : Fin n) :
    Matrix (Fin n) (Fin n) ℚ :=
  Matrix.of fun i j => if k < i ∧ j = k then -(M i k / M k k) else 0

/-- One step of LU reduction at column `k`: swap the partial pivot into
place, then eliminate below it. -/
def gaussStep {n : ℕ} (M : Matrix (Fin n) (Fin n) ℚ) (k : Fin n) :
    Matrix (Fin n) (Fin n) ℚ :=
  elimCol (rowSwap M k (pivotRow M k)) k

/-- LU reduction of the first `m` columns. -/
def gaussAux {n : ℕ} (M : Matrix (Fin n) (Fin n) ℚ) : ℕ → Matrix (Fin n) (Fin n) ℚ
  | 0 => M
  | m + 1 =>
    if h : m < n then gaussStep (gaussAux M m) ⟨m, h⟩ else gaussAux M m

/-- The upper-triangular factor `U` of the `P·L·U` factorization of `M`
with partial pivoting (`scipy.linalg.lu`): full Gaussian elimination. -/
def gauss {n : ℕ} (M : Matrix (Fin n) (Fin n) ℚ) : Matrix (Fin n) (Fin n) ℚ :=
  gaussAux M n

/-- Symbolic value of the floating-point expression
`0.5 * np.sum(np.log(np.absolute(np.diag(U))))`: either `-inf`
(some diagonal entry of `U` is zero) or `0.5 * log q` for a rational
`q > 0` (the product of the absolute pivots). -/
inductive LogVal where
  | negInf : LogVal
  | halfLogOf (q : ℚ) : LogVal
deriving DecidableEq, Repr

/-- Embedding of `logsqrtdet` (src/savanna/partition.py lines 10-17):
factor `K = P·L·U` and return `0.5 * Σ log |U[i][i]|`.  The function
performs no singularity check and raises no error: a zero pivot makes
`np.log` return `-inf` and the sum is then `-inf`. -/
def logsqrtdet {n : ℕ} (K : Matrix (Fin n) (Fin n) ℚ) : LogVal :=
  if ∃ i, gauss K i i = 0 then LogVal.negInf
  else LogVal.halfLogOf (∏ i, |gauss K i i|)

/-- One record of the weighted multigraph's multi-edge set: endpoints,
a key distinguishing parallel edges, and the `weight` attribute
(absent weights are read back as `0.0` by the source, so the record
stores the effective weight directly; added triangulation chords
carry weight `0`). -/
structure EdgeRec where
  u : ℕ
  v : ℕ
  key : ℕ
  weight : ℚ
deriving DecidableEq, Repr

/-- Directed half-edge (dart) of a multigraph edge. -/
structure Dart where
  tail : ℕ
  head : ℕ
  key : ℕ
deriving DecidableEq, Repr

/-- Reversal of a dart. -/
def Dart.rev (d : Dart) : Dart := ⟨d.head, d.tail, d.key⟩

/-- Weighted multigraph with an optional rotation system: for each
vertex, the cyclic sequence of its outgoing darts (the `rotation`
node attribute). -/
structure MGraph where
  nodes : List ℕ
  edges : List EdgeRec
  rot : List (ℕ × List Dart)
deriving DecidableEq, Repr

/-- Cross product of two plane vectors with exact (integer-grid)
coordinates. -/
def cross (p q : ℤ × ℤ) : ℤ := p.1 * q.2 - p.2 * q.1

/-- Index of the half-plane of a vector: `0` for angles in `[0, π)`
(measured from the positive x-axis), `1` for the rest. -/
def halfId (p : ℤ × ℤ) : ℕ :=
  if 0 < p.2 ∨ (p.2 = 0 ∧ 0 < p.1) then 0 else 1

/-- Exact strict comparison of the angles of two plane vectors:
first by half-plane, then by cross product within a half-plane. -/
def angLt (p q : ℤ × ℤ) : Bool :=
  if halfId p ≠ halfId q then decide (halfId p < halfId q)
  else decide (0 < cross p q)

/-- Stable insertion of `x` into `l`: `x` goes before the first element
it is not strictly greater than, so ties keep insertion order. -/
def insSorted (lt : α → α → Bool) (x : α) : List α → List α
  | [] => [x]
  | y :: ys => if lt y x then y :: insSorted lt x ys else x :: y :: ys

/-- Stable insertion sort by a strict comparison. -/
def sortBy (lt : α → α → Bool) (l : List α) : List α :=
  l.foldr (insSorted lt) []

/-- Coordinate lookup in the vertex → (x, y) map. -/
def posLookup (pos : List (ℕ × (ℤ × ℤ))) (u : ℕ) : ℤ × ℤ :=
  (pos.lookup u).getD (0, 0)

/-- Outgoing darts of vertex `u`, in edge-list (insertion) order. -/
def incidentDarts (edges : List EdgeRec) (u : ℕ) : List Dart :=
  edges.filterMap fun e =>
    if e.u = u then some ⟨u, e.v, e.key⟩
    else if e.v = u then some ⟨u, e.u, e.key⟩
    else none

/-- Vector pointing from the tail of a dart toward its head. -/
def dartVec (pos : List (ℕ × (ℤ × ℤ))) (d : Dart) : ℤ × ℤ :=
  ((posLookup pos d.head).1 - (posLookup pos d.tail).1,
   (posLookup pos d.head).2 - (posLookup pos d.tail).2)

/-- Modelled from the spec: `rotation_from_coordinates`
(savanna.planar, absent from src/).  Per §4.1, for each vertex the
incident edges are sorted by the angle of the vector toward the
neighbour, ties between parallel edges broken by insertion order
(stable sort).  Returns the `rotation` attribute for every vertex. -/
def rotation_from_coordinates (G : MGraph) (pos : List (ℕ × (ℤ × ℤ))) :
    List (ℕ × List Dart) :=
  G.nodes.map fun u =>
    (u, sortBy (fun d1 d2 => angLt (dartVec pos d1) (dartVec pos d2))
               (incidentDarts G.edges u))

/-- Both darts of every edge, in edge-list order. -/
def allDarts (G : MGraph) : List Dart :=
  G.edges.foldr
    (fun e acc => Dart.mk e.u e.v e.key :: Dart.mk e.v e.u e.key :: acc) []

/-- Rotation sequence stored at a vertex. -/
def rotAt (G : MGraph) (u : ℕ) : List Dart :=
  (G.rot.lookup u).getD []

/-- Cyclic successor of `d` in the list `l` (wraparound indexing). -/
def nextAfter (l : List Dart) (d : Dart) : Dart :=
  l.getD ((l.indexOf d + 1) % l.length) ⟨0, 0, 0⟩

/-- Face tracing: from a directed edge, the next boundary edge of the
same face is the successor of the reverse edge in the rotation of the
head vertex (spec §4.2 and design note). -/
def faceNext (G : MGraph) (d : Dart) : Dart :=
  nextAfter (rotAt G d.head) d.rev

/-- Fuel-bounded orbit of `faceNext` starting from `d` until the walk
returns to `start`. -/
def traceFace (G : MGraph) : ℕ → Dart → Dart → List Dart
  | 0, _, d => [d]
  | fuel + 1, start, d =>
    d :: (let d2 := faceNext G d
          if d2 = start then [] else traceFace G fuel start d2)

/-- Boundary walk of the face containing dart `d` (fuel: total number
of darts, an upper bound on any face length). -/
def faceOf (G : MGraph) (d : Dart) : List Dart :=
  traceFace G (2 * G.edges.length) d d

/-- Position of a dart in the global dart enumeration. -/
def dartIndex (G : MGraph) (d : Dart) : ℕ :=
  (allDarts G).indexOf d

/-- Canonical representative test: `d` is the first dart of its face
orbit in the global enumeration, so each face is listed once. -/
def isFaceRep (G : MGraph) (d : Dart) : Bool :=
  (faceOf G d).all fun d2 => dartIndex G d ≤ dartIndex G d2

/-- Boundary walks of all faces of the embedding, one per face. -/
def faceReps (G : MGraph) : List (List Dart) :=
  ((allDarts G).filter (isFaceRep G)).map (faceOf G)

/-- Largest edge key in use, for generating fresh keys. -/
def maxKey (edges : List EdgeRec) : ℕ :=
  edges.foldl (fun m e => max m e.key) 0

/-- Insert `x` immediately after `anchor` (or at the end if the anchor
is absent). -/
def insertAfter [DecidableEq α] (anchor x : α) : List α → List α
  | [] => [x]
  | y :: ys => if y = anchor then y :: x :: ys else y :: insertAfter anchor x ys

/-- Add a zero-weight chord `a — w` with key `key` to the graph,
splicing its two darts into the rotations at `a` (after `aAnchor`)
and at `w` (after `wAnchor`) so the embedding stays valid locally. -/
def addChord (G : MGraph) (a w key : ℕ) (aAnchor wAnchor : Dart) : MGraph :=
  { G with
    edges := G.edges ++ [⟨a, w, key, 0⟩]
    rot := G.rot.map fun p =>
      if p.1 = a then (p.1, insertAfter aAnchor ⟨a, w, key⟩ p.2)
      else if p.1 = w then (p.1, insertAfter wAnchor ⟨w, a, key⟩ p.2)
      else p }

/-- Add the fan chords from `a` to the tails of the listed boundary
darts, with consecutive fresh keys. -/
def fanChords (a : ℕ) (d0 : Dart) : MGraph → List Dart → ℕ → MGraph
  | G, [], _ => G
  | G, d :: ds, key => fanChords a d0 (addChord G a d.tail key d0 d) ds (key + 1)

/-- Fan triangulation of one face walk `[d0, d1, …]` with vertices
`w i = (d i).tail`: zero-weight chords from `w 0` to the non-adjacent
boundary vertices `w 2, …, w (len − 2)` (spec §4.2). -/
def fanTriangulate (G : MGraph) (f : List Dart) : MGraph :=
  match f with
  | [] => G
  | d0 :: _ => fanChords d0.tail d0 G ((f.drop 2).dropLast) (maxKey G.edges + 1)

/-- Modelled from the spec: `plane_triangulate` (savanna.planar, absent
from src/).  Per §4.2, walks each face of the embedding and fan-
triangulates every face having more than three boundary edges with
zero-weight chords; already-triangular faces are left untouched. -/
def plane_triangulate (G : MGraph) : MGraph :=
  (faceReps G).foldl (fun H f => if f.length ≤ 3 then H else fanTriangulate H f) G

/-- The multigraph edge a dart belongs to. -/
def edgeOfDart (G : MGraph) (d : Dart) : Option EdgeRec :=
  G.edges.find? fun e =>
    e.key == d.key &&
      ((e.u == d.tail && e.v == d.head) || (e.u == d.head && e.v == d.tail))

/-- Index of a dart's edge in the edge list (the edge indexing scheme
of §4.4: list position). -/
def edgePos (G : MGraph) (d : Dart) : ℕ :=
  G.edges.findIdx fun e =>
    e.key == d.key &&
      ((e.u == d.tail && e.v == d.head) || (e.u == d.head && e.v == d.tail))

/-- Whether a boundary dart agrees with the orientation assigned to its
edge: bit `true` directs the edge from its stored `u` to `v`. -/
def dartAgrees (G : MGraph) (o : List Bool) (d : Dart) : Bool :=
  match edgeOfDart G d with
  | none => false
  | some e =>
    if o.getD (edgePos G d) true then e.u == d.tail && e.v == d.head
    else e.v == d.tail && e.u == d.head

/-- Number of boundary darts of a face walk that agree with the
assigned orientation (the fixed traversal sense is the face-tracing
direction itself). -/
def countAgree (G : MGraph) (o : List Bool) (f : List Dart) : ℕ :=
  (f.filter (dartAgrees G o)).length

/-- The defining Kasteleyn condition (spec §4.3): every face boundary
has an odd number of edges agreeing with the traversal sense. -/
def orientationOK (G : MGraph) (o : List Bool) : Bool :=
  (faceReps G).all fun f => countAgree G o f % 2 == 1

/-- All orientation bit-vectors of a given length. -/
def allBoolLists : ℕ → List (List Bool)
  | 0 => [[]]
  | m + 1 =>
    (allBoolLists m).foldr (fun l acc => (false :: l) :: (true :: l) :: acc) []

/-- Modelled from the spec: `odd_edge_orientation` (savanna.planar,
absent from src/).  Per §4.3's output contract and failure mode: the
assigner produces a direction for every edge satisfying the per-face
odd-parity condition, and failing to find one is fatal.  The spanning-
tree search procedure itself is not modelled; the contract is realized
by exhaustive search. -/
def odd_edge_orientation (G : MGraph) : Except String (List Bool) :=
  match (allBoolLists G.edges.length).find? (orientationOK G) with
  | some o => Except.ok o
  | none => Except.error "no Kasteleyn orientation exists"

/-- Decidable equality of `Except` results, used to evaluate the
orientation stage on concrete graphs. -/
instance {ε α : Type} [DecidableEq ε] [DecidableEq α] : DecidableEq (Except ε α)
  | Except.ok a, Except.ok b =>
    if h : a = b then isTrue (by rw [h]) else isFalse (by simp [h])
  | Except.ok _, Except.error _ => isFalse (by simp)
  | Except.error _, Except.ok _ => isFalse (by simp)
  | Except.error a, Except.error b =>
    if h : a = b then isTrue (by rw [h]) else isFalse (by simp [h])

/-- Skew accumulation of one directed weighted edge `a → b` into an
indexed entry table: `K[a][b] += w`, `K[b][a] -= w` (spec §4.5). -/
def addSkew (K : ℕ → ℕ → ℚ) (a b : ℕ) (w : ℚ) : ℕ → ℕ → ℚ :=
  fun i j =>
    K i j + (if i = a ∧ j = b then w else 0) - (if i = b ∧ j = a then w else 0)

/-- Accumulate one edge according to its orientation bit (`true`
directs the stored `u → v`, `false` the reverse). -/
def kasteleynStep (K : ℕ → ℕ → ℚ) (eb : EdgeRec × Bool) : ℕ → ℕ → ℚ :=
  if eb.2 then addSkew K eb.1.u eb.1.v eb.1.weight
  else addSkew K eb.1.v eb.1.u eb.1.weight

/-- Entry table of the Kasteleyn matrix over vertex labels, built by
accumulating every oriented edge. -/
def kasteleynFun (edges : List (EdgeRec × Bool)) : ℕ → ℕ → ℚ :=
  edges.foldl kasteleynStep fun _ _ => 0

/-- Modelled from the spec: `kasteleyn` (savanna.kasteleyn, absent from
src/).  Per §4.5: from the oriented, weighted, indexed graph, assemble
the dense skew-symmetric matrix over the vertex ordering (position in
the node list), accumulating parallel edges. -/
def kasteleyn (G : MGraph) (o : List Bool) :
    Matrix (Fin G.nodes.length) (Fin G.nodes.length) ℚ :=
  Matrix.of fun i j => kasteleynFun (G.edges.zip o) (G.nodes.get i) (G.nodes.get j)

/-- Binary quadratic model over integer-labelled variables: linear
biases, quadratic biases on unordered pairs, and a constant offset. -/
structure BQM where
  linear : List (ℕ × ℚ)
  quadratic : List ((ℕ × ℕ) × ℚ)
  offset : ℚ
deriving DecidableEq, Repr

/-- Variables of a binary quadratic model, in first-appearance order
(`len(bqm)` is the length of this list). -/
def bqmVariables (bqm : BQM) : List ℕ :=
  ((bqm.linear.map Prod.fst) ++
      bqm.quadratic.foldr (fun t acc => t.1.1 :: t.1.2 :: acc) []).dedup

/-- Modelled from the spec: `bqm_to_multigraph` (savanna.io.dimod,
absent from src/).  Per §2.1 and §6, the external builder converts the
energy model into a weighted multigraph over the model's variables plus
a real constant offset; each interaction becomes one weighted edge and
the model's constant term is returned as the offset. -/
def bqm_to_multigraph (bqm : BQM) : MGraph × ℚ :=
  (⟨bqmVariables bqm,
    (bqm.quadratic.zip (List.range bqm.quadratic.length)).map
      (fun t => ⟨t.1.1.1, t.1.1.2, t.2, t.1.2⟩),
    []⟩,
   bqm.offset)

/-- Sum of the `weight` attributes over all edges (missing attributes
read as `0.0`; every record stores its effective weight). -/
def edgeWeightSum (G : MGraph) : ℚ :=
  (G.edges.map EdgeRec.weight).sum

/-- The edge indexing scheme of the source: enumerate the edges of the
final graph in list order (src/savanna/partition.py line 39). -/
def edgeIndices (G : MGraph) : List (EdgeRec × ℕ) :=
  G.edges.enum.map fun p => (p.2, p.1)

/-- Symbolic value of the scalar returned by `log_partition_bqm`:
`pf - sub`, where `pf` denotes the floating-point value of
`logsqrtdet(K)` and `sub` is the exact rational
`Σ(edge weights) + offset` subtracted from it. -/
structure LPValue where
  pf : LogVal
  sub : ℚ
deriving DecidableEq, Repr

/-- The multigraph after the rotation system is attached (lines 28-29
of src/savanna/partition.py). -/
def withRotation (G : MGraph) (pos : List (ℕ × (ℤ × ℤ))) : MGraph :=
  { G with rot := rotation_from_coordinates G pos }

/-- The triangulated, embedded multigraph the pipeline derives from the
model and coordinates before orientation. -/
def pipelineGraph (bqm : BQM) (pos : List (ℕ × (ℤ × ℤ))) : MGraph :=
  plane_triangulate (withRotation (bqm_to_multigraph bqm).1 pos)

/-- Embedding of `log_partition_bqm` (src/savanna/partition.py lines
20-45): check the variable count, build the multigraph, attach the
rotation system, triangulate, orient, index the edges, assemble the
Kasteleyn matrix, and return
`logsqrtdet(K) − Σ(edge weights) − offset`. -/
def log_partition_bqm (bqm : BQM) (pos : List (ℕ × (ℤ × ℤ))) :
    Except String LPValue :=
  if (bqmVariables bqm).length < 3 then
    Except.error "bqm must have at least three variables"
  else
    let po := bqm_to_multigraph bqm
    let G2 := plane_triangulate (withRotation po.1 pos)
    match odd_edge_orientation G2 with
    | Except.error e => Except.error e
    | Except.ok o =>
      let _ := edgeIndices G2
      Except.ok ⟨logsqrtdet (kasteleyn G2 o), edgeWeightSum G2 + po.2⟩

/-- State visible to the caller of `log_partition_bqm`, plus the
internal multigraph object the pipeline allocates and mutates: the
caller's model and coordinate map, and the graph `G` (with its
orientation and edge-index attributes) once built. -/
structure PyEnv where
  bqm : BQM
  pos : List (ℕ × (ℤ × ℤ))
  G : Option MGraph
  oriented : Option (List Bool)
  index : Option (List (EdgeRec × ℕ))
deriving DecidableEq, Repr

/-- Pipeline stage: build the multigraph from the model (writes only
the internal `G`). -/
def stageBuild (s : PyEnv) : PyEnv :=
  { s with G := some (bqm_to_multigraph s.bqm).1 }

/-- Pipeline stage: attach the `rotation` node attributes (mutates only
the internal `G`). -/
def stageRotate (s : PyEnv) : PyEnv :=
  { s with G := s.G.map fun G => withRotation G s.pos }

/-- Pipeline stage: triangulate in place (mutates only the internal
`G`). -/
def stageTriangulate (s : PyEnv) : PyEnv :=
  { s with G := s.G.map plane_triangulate }

/-- Pipeline stage: compute and attach the `oriented` edge attributes
(mutates only the internal `G`'s attribute tables). -/
def stageOrient (s : PyEnv) : PyEnv :=
  { s with oriented := s.G.bind fun G => (odd_edge_orientation G).toOption }

/-- Pipeline stage: attach the `index` edge attributes (mutates only
the internal `G`'s attribute tables). -/
def stageIndex (s : PyEnv) : PyEnv :=
  { s with index := s.G.map edgeIndices }

/-- The whole pipeline as a state transformer on `PyEnv`, mirroring the
sequence of in-place mutations performed by `log_partition_bqm`. -/
def logPartitionEnv (s : PyEnv) : PyEnv :=
  stageIndex (stageOrient (stageTriangulate (stageRotate (stageBuild s))))

/-- The unweighted frustrated triangle of `test_NAE3SAT_bqm`
(src/tests/test_planar_sampler.py lines 12-22), with variables
`a, b, c` encoded as `0, 1, 2`: pairwise coupling `+1` on each pair,
no linear biases, offset `0`. -/
def triBqm : BQM :=
  ⟨[], [((0, 1), 1), ((1, 2), 1), ((2, 0), 1)], 0⟩

/-- The positions `a = (0,0)`, `b = (1,0)`, `c = (0,1)` from the same
test. -/
def triPos : List (ℕ × (ℤ × ℤ)) :=
  [(0, (0, 0)), (1, (1, 0)), (2, (0, 1))]

/-- The triangulated, embedded triangle graph the pipeline produces. -/
def triGraph : MGraph :=
  pipelineGraph triBqm triPos

/-- Spin value of a Boolean assignment bit. -/
def spinVal (b : Bool) : ℚ := if b then 1 else -1

/-- Ising energy of an assignment under a binary quadratic model (spec
glossary: lower energy is more probable). -/
def bqmEnergy (bqm : BQM) (s : ℕ → ℚ) : ℚ :=
  (bqm.linear.map fun t => t.2 * s t.1).sum +
    (bqm.quadratic.map fun t => t.2 * s t.1.1 * s t.1.2).sum +
    bqm.offset

/-- Modelled from the spec: the ground-state path (the
`PlanarGraphSampler` consumer, absent from src/; §6 marks its decoding
step out of scope).  The spec's unweighted-triangle scenario pins its
output: the assignment `{a: +1, b: -1, c: -1}`. -/
def planarGroundStateTriangle : List (ℕ × ℚ) :=
  [(0, 1), (1, -1), (2, -1)]

/-- Assignment function read off the ground-state sample. -/
def triGroundAssign (v : ℕ) : ℚ :=
  (planarGroundStateTriangle.lookup v).getD 0

/-- Four-variable cycle model (unit couplings on a square), a concrete
even-vertex instance on which the whole pipeline succeeds. -/
def sqBqm : BQM :=
  ⟨[], [((0, 1), 1), ((1, 2), 1), ((2, 3), 1), ((3, 0), 1)], 0⟩

/-- Unit-square positions for the four-variable cycle. -/
def sqPos : List (ℕ × (ℤ × ℤ)) :=
  [(0, (0, 0)), (1, (1, 0)), (2, (1, 1)), (3, (0, 1))]

/-- The triangulated embedded graph of the four-variable cycle. -/
def sqGraph : MGraph :=
  pipelineGraph sqBqm sqPos

/-- The orientation the assigner returns on `sqGraph`. -/
def sqOrient : List Bool :=
  [true, false, false, false, false, false]

/-- One face walk of `sqGraph` (the triangle 0 → 1 → 3). -/
def sqFace : List Dart :=
  [⟨0, 1, 0⟩, ⟨1, 3, 5⟩, ⟨3, 0, 3⟩]

/-- A singular skew-symmetric 3 × 3 matrix (odd order). -/
def K3 : Matrix (Fin 3) (Fin 3) ℚ :=
  !![0, 1, -1; -1, 0, 2; 1, -2, 0]

/-- A nonsingular skew-symmetric 2 × 2 matrix. -/
def M2 : Matrix (Fin 2) (Fin 2) ℚ :=
  !![0, 1; -1, 0]

end Savanna

namespace Greedy

/-- The Python value passed as the `seed` keyword argument of
`SteepestDescentSolver.sample`: `None`, an `Integral`, or any other
object. -/
inductive SeedArg where
  | none : SeedArg
  | int (z : ℤ) : SeedArg
  | other : SeedArg
deriving DecidableEq, Repr

/-- Outcome of the seed validation. -/
inductive SeedCheck where
  | ok : SeedCheck
  | typeError : SeedCheck
  | valueError : SeedCheck
deriving DecidableEq, Repr

/-- Embedding of the seed validation in `SteepestDescentSolver.sample`
(src/dwave/samplers/greedy/sampler.py lines 259-263): `TypeError`
unless the seed is `None` or `Integral`; `ValueError` for an `Integral`
outside `[0, 2^32 - 1]`. -/
def seedValidation (seed : SeedArg) : SeedCheck :=
  match seed with
  | SeedArg.other => SeedCheck.typeError
  | SeedArg.none => SeedCheck.ok
  | SeedArg.int z =>
    if ¬(0 ≤ z ∧ z ≤ 2 ^ 32 - 1) then SeedCheck.valueError else SeedCheck.ok

end Greedy


/-!
Theorems.
-/

namespace Savanna

lemma pivotFold_cons {n : ℕ} (M : Matrix (Fin n) (Fin n) ℚ) (k b r : Fin n)
    (l : List (Fin n)) :
    pivotFold M k b (r :: l) = pivotFold M k (if |M b k| < |M r k| then r else b) l :=
  rfl

lemma pivotFold_bound {n : ℕ} (M : Matrix (Fin n) (Fin n) ℚ) (k : Fin n) :
    ∀ (l : List (Fin n)) (b : Fin n),
      |M b k| ≤ |M (pivotFold M k b l) k| ∧
        ∀ r ∈ l, |M r k| ≤ |M (pivotFold M k b l) k| := by
  intro l
  induction l with
  | nil => intro b; exact ⟨le_refl _, by simp⟩
  | cons r rest ih =>
    intro b
    rw [pivotFold_cons]
    by_cases h : |M b k| < |M r k|
    · rw [if_pos h]
      rcases ih r with ⟨h1, h2⟩
      refine ⟨le_trans (le_of_lt h) h1, ?_⟩
      intro r2 hr2
      rcases List.mem_cons.mp hr2 with rfl | hmem
      · exact h1
      · exact h2 r2 hmem
    · rw [if_neg h]
      rcases ih b with ⟨h1, h2⟩
      refine ⟨h1, ?_⟩
      intro r2 hr2
      rcases List.mem_cons.mp hr2 with rfl | hmem
      · exact le_trans (le_of_not_lt h) h1
      · exact h2 r2 hmem

lemma pivotFold_eq_or_mem {n : ℕ} (M : Matrix (Fin n) (Fin n) ℚ) (k : Fin n) :
    ∀ (l : List (Fin n)) (b : Fin n), pivotFold M k b l = b ∨ pivotFold M k b l ∈ l := by
  intro l
  induction l with
  | nil => intro b; exact Or.inl rfl
  | cons r rest ih =>
    intro b
    rw [pivotFold_cons]
    by_cases h : |M b k| < |M r k|
    · rw [if_pos h]
      rcases ih r with h2 | h2
      · exact Or.inr (by rw [h2]; exact List.mem_cons_self r rest)
      · exact Or.inr (List.mem_cons_of_mem r h2)
    · rw [if_neg h]
      rcases ih b with h2 | h2
      · exact Or.inl h2
      · exact Or.inr (List.mem_cons_of_mem r h2)

lemma pivotRow_ge {n : ℕ} (M : Matrix (Fin n) (Fin n) ℚ) (k : Fin n) :
    k ≤ pivotRow M k := by
  unfold pivotRow
  rcases pivotFold_eq_or_mem M k ((List.finRange n).filter fun r => k ≤ r) k with h | h
  · rw [h]
  · exact of_decide_eq_true (List.mem_filter.mp h).2

lemma pivotRow_max {n : ℕ} (M : Matrix (Fin n) (Fin n) ℚ) (k : Fin n) :
    ∀ i, k ≤ i → |M i k| ≤ |M (pivotRow M k) k| := by
  intro i hi
  have hmem : i ∈ (List.finRange n).filter fun r => k ≤ r :=
    List.mem_filter.mpr ⟨List.mem_finRange i, decide_eq_true hi⟩
  exact (pivotFold_bound M k _ k).2 i hmem

lemma elimCol_eq {n : ℕ} (M : Matrix (Fin n) (Fin n) ℚ) (k : Fin n) :
    elimCol M k = (1 + elimMat M k) * M := by
  ext i j
  rw [Matrix.add_mul, Matrix.one_mul, Matrix.add_apply]
  have hsum : (elimMat M k * M) i j =
      if k < i then -(M i k / M k k) * M k j else 0 := by
    rw [Matrix.mul_apply]
    have hterm : ∀ l, elimMat M k i l * M l j =
        if l = k then (if k < i then -(M i k / M k k) * M k j else 0) else 0 := by
      intro l
      by_cases hl : l = k
      · rw [hl]
        by_cases hki : k < i
        · simp [elimMat, hki]
        · simp [elimMat, hki]
      · simp [elimMat, hl]
    rw [Finset.sum_congr rfl fun l _ => hterm l, Finset.sum_ite_eq' Finset.univ k]
    simp
  rw [hsum]
  by_cases hki : k < i
  · simp only [elimCol, Matrix.of_apply, if_pos hki]
    ring
  · simp only [elimCol, Matrix.of_apply, if_neg hki, if_neg hki, add_zero]

lemma det_one_add_elimMat {n : ℕ} (M : Matrix (Fin n) (Fin n) ℚ) (k : Fin n) :
    (1 + elimMat M k).det = 1 := by
  have htri : (1 + elimMat M k).BlockTriangular OrderDual.toDual := by
    intro i j hij
    have hij2 : i < j := hij
    have hcond : ¬(k < i ∧ j = k) := by
      rintro ⟨h1, rfl⟩
      exact absurd (lt_trans h1 hij2) (lt_irrefl j)
    rw [Matrix.add_apply, Matrix.one_apply_ne (ne_of_lt hij2)]
    simp [elimMat, hcond]
  rw [Matrix.det_of_lowerTriangular _ htri]
  have hdiag : ∀ i, (1 + elimMat M k) i i = 1 := by
    intro i
    have hcond : ¬(k < i ∧ i = k) := by
      rintro ⟨h1, rfl⟩
      exact lt_irrefl i h1
    simp [Matrix.add_apply, Matrix.one_apply_eq, elimMat, hcond]
  rw [Finset.prod_congr rfl fun i _ => hdiag i]
  simp

lemma det_elimCol {n : ℕ} (M : Matrix (Fin n) (Fin n) ℚ) (k : Fin n) :
    (elimCol M k).det = M.det := by
  rw [elimCol_eq, Matrix.det_mul, det_one_add_elimMat, one_mul]

lemma rowSwap_apply {n : ℕ} (M : Matrix (Fin n) (Fin n) ℚ) (k r i j : Fin n) :
    rowSwap M k r i j = M (Equiv.swap k r i) j :=
  rfl

lemma abs_det_rowSwap {n : ℕ} (M : Matrix (Fin n) (Fin n) ℚ) (k r : Fin n) :
    |(rowSwap M k r).det| = |M.det| := by
  have h := Matrix.det_permute (Equiv.swap k r) M
  rw [rowSwap, h]
  rcases Int.units_eq_one_or (Equiv.Perm.sign (Equiv.swap k r)) with hs | hs <;>
    rw [hs] <;> simp

lemma gaussStep_lower_zero {n : ℕ} (A : Matrix (Fin n) (Fin n) ℚ) (k : Fin n)
    (hA : ∀ i j : Fin n, (j : ℕ) < (k : ℕ) → (j : ℕ) < (i : ℕ) → A i j = 0) :
    ∀ i j : Fin n, (j : ℕ) < (k : ℕ) + 1 → (j : ℕ) < (i : ℕ) → gaussStep A k i j = 0 := by
  have hkr : k ≤ pivotRow A k := pivotRow_ge A k
  set r := pivotRow A k with hr
  set B := rowSwap A k r with hB
  have hBlow : ∀ i j : Fin n, (j : ℕ) < (k : ℕ) → (j : ℕ) < (i : ℕ) → B i j = 0 := by
    intro i j hjk hji
    rw [hB, rowSwap_apply, Equiv.swap_apply_def]
    by_cases h1 : i = k
    · rw [if_pos h1]
      exact hA r j hjk (lt_of_lt_of_le hjk (Fin.le_def.mp hkr))
    · rw [if_neg h1]
      by_cases h2 : i = r
      · rw [if_pos h2]
        exact hA k j hjk hjk
      · rw [if_neg h2]
        exact hA i j hjk hji
  have hBmax : ∀ i : Fin n, k ≤ i → |B i k| ≤ |B k k| := by
    intro i hki
    have h1 : B k k = A r k := by
      rw [hB, rowSwap_apply, Equiv.swap_apply_left]
    have h2 : B i k = A (Equiv.swap k r i) k := rfl
    rw [h1, h2]
    apply pivotRow_max A k
    rw [Equiv.swap_apply_def]
    by_cases e1 : i = k
    · rw [if_pos e1]; exact hkr
    · rw [if_neg e1]
      by_cases e2 : i = r
      · rw [if_pos e2]
      · rw [if_neg e2]; exact hki
  intro i j hjk1 hji
  show elimCol B k i j = 0
  rcases Nat.lt_or_ge (j : ℕ) (k : ℕ) with hjk | hjk
  · have hBij : B i j = 0 := hBlow i j hjk hji
    have hBkj : B k j = 0 := hBlow k j hjk hjk
    by_cases hki : k < i
    · simp [elimCol, hki, hBij, hBkj]
    · simp [elimCol, hki, hBij]
  · have hjk2 : (j : ℕ) = (k : ℕ) :=
      le_antisymm (Nat.lt_succ_iff.mp hjk1) hjk
    have hjkf : j = k := Fin.ext hjk2
    subst hjkf
    have hki : j < i := Fin.lt_def.mpr hji
    by_cases hkk : B j j = 0
    · have hBik : B i j = 0 := by
        have hle := hBmax i (le_of_lt hki)
        rw [hkk] at hle
        have h0 : |B i j| = 0 := le_antisymm (by simpa using hle) (abs_nonneg _)
        exact abs_eq_zero.mp h0
      simp [elimCol, hki, hBik]
    · simp only [elimCol, Matrix.of_apply, if_pos hki]
      rw [div_mul_cancel₀ _ hkk, sub_self]

lemma gaussAux_lower_zero {n : ℕ} (M : Matrix (Fin n) (Fin n) ℚ) :
    ∀ m, ∀ i j : Fin n, (j : ℕ) < m → (j : ℕ) < (i : ℕ) → gaussAux M m i j = 0 := by
  intro m
  induction m with
  | zero => intro i j h _; exact absurd h (Nat.not_lt_zero _)
  | succ m ih =>
    intro i j hjm hji
    simp only [gaussAux]
    by_cases h : m < n
    · rw [dif_pos h]
      exact gaussStep_lower_zero (gaussAux M m) ⟨m, h⟩ ih i j hjm hji
    · rw [dif_neg h]
      have hjn := j.isLt
      exact ih i j (by omega) hji

lemma gauss_lower_zero {n : ℕ} (M : Matrix (Fin n) (Fin n) ℚ) :
    ∀ i j : Fin n, (j : ℕ) < (i : ℕ) → gauss M i j = 0 :=
  fun i j hji => gaussAux_lower_zero M n i j j.isLt hji

lemma det_gauss_diag {n : ℕ} (M : Matrix (Fin n) (Fin n) ℚ) :
    (gauss M).det = ∏ i, gauss M i i := by
  apply Matrix.det_of_upperTriangular
  intro i j hij
  exact gauss_lower_zero M i j (Fin.lt_def.mp hij)

lemma abs_det_gaussStep {n : ℕ} (A : Matrix (Fin n) (Fin n) ℚ) (k : Fin n) :
    |(gaussStep A k).det| = |A.det| := by
  unfold gaussStep
  rw [det_elimCol, abs_det_rowSwap]

lemma abs_det_gaussAux {n : ℕ} (M : Matrix (Fin n) (Fin n) ℚ) :
    ∀ m, |(gaussAux M m).det| = |M.det| := by
  intro m
  induction m with
  | zero => rfl
  | succ m ih =>
    simp only [gaussAux]
    by_cases h : m < n
    · rw [dif_pos h, abs_det_gaussStep, ih]
    · rw [dif_neg h, ih]

lemma abs_det_gauss {n : ℕ} (M : Matrix (Fin n) (Fin n) ℚ) :
    |(gauss M).det| = |M.det| :=
  abs_det_gaussAux M n

lemma abs_det_eq_prod_pivots {n : ℕ} (M : Matrix (Fin n) (Fin n) ℚ) :
    |M.det| = ∏ i, |gauss M i i| := by
  rw [← abs_det_gauss, det_gauss_diag, Finset.abs_prod]

lemma foldl_skip_small (l : List (List Dart)) (G : MGraph)
    (h : ∀ f ∈ l, f.length ≤ 3) :
    l.foldl (fun H f => if f.length ≤ 3 then H else fanTriangulate H f) G = G := by
  induction l with
  | nil => rfl
  | cons f fs ih =>
    have hf : f.length ≤ 3 := h f (List.mem_cons_self f fs)
    simp only [List.foldl_cons, if_pos hf]
    exact ih fun g hg => h g (List.mem_cons_of_mem f hg)

/-- Claim C7: on a graph whose faces are all bounded by exactly three
edges, the planar triangulator adds no edges and changes no vertex or
edge attributes: it returns the graph unchanged. -/
theorem plane_triangulate_idempotent (G : MGraph)
    (h : ∀ f ∈ faceReps G, f.length = 3) :
    plane_triangulate G = G :=
  foldl_skip_small (faceReps G) G fun f hf => le_of_eq (h f hf)

/-- Witness for C7: the embedded triangle graph is already triangulated
and the triangulator leaves it untouched. -/
theorem plane_triangulate_idempotent_witness :
    (∀ f ∈ faceReps triGraph, f.length = 3) ∧ plane_triangulate triGraph = triGraph :=
  ⟨by decide, plane_triangulate_idempotent triGraph (by decide)⟩

/-- Claim C6: any orientation returned by the Kasteleyn orientation
assigner gives every face of the embedding an odd number of boundary
edges agreeing with the (face-tracing) traversal sense. -/
theorem odd_edge_orientation_parity (G : MGraph) (o : List Bool)
    (h : odd_edge_orientation G = Except.ok o) :
    ∀ f ∈ faceReps G, Odd (countAgree G o f) := by
  intro f hf
  unfold odd_edge_orientation at h
  rcases hfind : (allBoolLists G.edges.length).find? (orientationOK G) with _ | o2
  · rw [hfind] at h; cases h
  · rw [hfind] at h
    have hok : orientationOK G o2 = true := List.find?_some hfind
    cases h
    rw [orientationOK, List.all_eq_true] at hok
    have h2 := hok f hf
    rw [Nat.odd_iff]
    simpa using h2

/-- Witness for C6: a successful run on the triangulated square graph,
checked on one of its faces. -/
theorem odd_edge_orientation_parity_witness :
    odd_edge_orientation sqGraph = Except.ok sqOrient ∧
      sqFace ∈ faceReps sqGraph ∧ Odd (countAgree sqGraph sqOrient sqFace) :=
  ⟨by decide, by decide,
    odd_edge_orientation_parity sqGraph sqOrient (by decide) sqFace (by decide)⟩

lemma addSkew_skew (K : ℕ → ℕ → ℚ) (u v : ℕ) (w : ℚ)
    (hK : ∀ a b, K a b = -K b a) :
    ∀ a b, addSkew K u v w a b = -addSkew K u v w b a := by
  intro a b
  unfold addSkew
  rw [hK a b]
  have h1 : (if a = u ∧ b = v then w else 0) = (if b = v ∧ a = u then w else 0) :=
    if_congr and_comm rfl rfl
  have h2 : (if a = v ∧ b = u then w else 0) = (if b = u ∧ a = v then w else 0) :=
    if_congr and_comm rfl rfl
  rw [h1, h2]
  ring

lemma kasteleynStep_skew (K : ℕ → ℕ → ℚ) (eb : EdgeRec × Bool)
    (hK : ∀ a b, K a b = -K b a) :
    ∀ a b, kasteleynStep K eb a b = -kasteleynStep K eb b a := by
  intro a b
  unfold kasteleynStep
  rcases eb with ⟨e, bit⟩
  cases bit
  · simpa using addSkew_skew K e.v e.u e.weight hK a b
  · simpa using addSkew_skew K e.u e.v e.weight hK a b

lemma kasteleynFoldl_skew (edges : List (EdgeRec × Bool)) :
    ∀ K : ℕ → ℕ → ℚ, (∀ a b, K a b = -K b a) →
      ∀ a b, edges.foldl kasteleynStep K a b = -edges.foldl kasteleynStep K b a := by
  induction edges with
  | nil => intro K hK a b; exact hK a b
  | cons eb rest ih =>
    intro K hK a b
    simp only [List.foldl_cons]
    exact ih (kasteleynStep K eb) (kasteleynStep_skew K eb hK) a b

lemma kasteleynFun_skew (edges : List (EdgeRec × Bool)) :
    ∀ a b, kasteleynFun edges a b = -kasteleynFun edges b a := by
  intro a b
  exact kasteleynFoldl_skew edges (fun _ _ => 0) (by intro a b; simp) a b

/-- Claim C5: the assembled Kasteleyn matrix is exactly skew-symmetric,
with zero diagonal, for every input graph and orientation. -/
theorem kasteleyn_skew_symmetric (G : MGraph) (o : List Bool) :
    (∀ i j, kasteleyn G o i j = -kasteleyn G o j i) ∧
      ∀ i, kasteleyn G o i i = 0 := by
  constructor
  · intro i j
    exact kasteleynFun_skew (G.edges.zip o) (G.nodes.get i) (G.nodes.get j)
  · intro i
    have h := kasteleynFun_skew (G.edges.zip o) (G.nodes.get i) (G.nodes.get i)
    have h2 : kasteleyn G o i i = -kasteleyn G o i i := h
    linarith

end Savanna

namespace Savanna

/-- Claim C9: the pipeline, run as a state transformer that mirrors the
in-place mutations of `log_partition_bqm`, writes only the internal
multigraph it builds from the model: the caller's model and coordinate
map come out unchanged, and every attribute lands on the internal
graph, which ends up being exactly the triangulated pipeline graph. -/
theorem log_partition_bqm_preserves_inputs (s : PyEnv) :
    (logPartitionEnv s).bqm = s.bqm ∧ (logPartitionEnv s).pos = s.pos ∧
      (logPartitionEnv s).G = some (pipelineGraph s.bqm s.pos) := by
  refine ⟨rfl, rfl, ?_⟩
  simp [logPartitionEnv, stageIndex, stageOrient, stageTriangulate, stageRotate,
    stageBuild, pipelineGraph]

/-- Claim C4: `log_partition_bqm` reports the fatal "at least three
variables" input error exactly when the model has fewer than three
variables, for every coordinate map (the check precedes all embedding
work, so the map is never consulted); with three or more variables this
error is never raised. -/
lemma odd_edge_orientation_error_msg (G : MGraph) (e : String)
    (h : odd_edge_orientation G = Except.error e) :
    e = "no Kasteleyn orientation exists" := by
  unfold odd_edge_orientation at h
  rcases hf : (allBoolLists G.edges.length).find? (orientationOK G) with _ | o
  · rw [hf] at h
    simpa using h.symm
  · rw [hf] at h
    cases h

theorem log_partition_bqm_few_vars_iff (bqm : BQM) (pos : List (ℕ × (ℤ × ℤ))) :
    log_partition_bqm bqm pos = Except.error "bqm must have at least three variables" ↔
      (bqmVariables bqm).length < 3 := by
  constructor
  · intro h
    by_contra hge
    unfold log_partition_bqm at h
    rw [if_neg hge] at h
    simp only [] at h
    rcases horient : odd_edge_orientation
        (plane_triangulate (withRotation (bqm_to_multigraph bqm).1 pos)) with e | o
    · rw [horient] at h
      simp only [Except.error.injEq] at h
      have hmsg := odd_edge_orientation_error_msg _ _ horient
      rw [hmsg] at h
      simp at h
    · rw [horient] at h
      simp at h
  · intro h
    unfold log_partition_bqm
    rw [if_pos h]

/-- Claim C8: in the frustrated-triangle scenario of the source test
(pairwise coupling `+1`, variables `a, b, c` as `0, 1, 2`), the
assignment `{a: +1, b: -1, c: -1}` returned by the ground-state path
has energy `-1`, and `-1` is the minimum energy over all spin
assignments. -/
theorem ground_state_triangle_minimum :
    planarGroundStateTriangle = [(0, 1), (1, -1), (2, -1)] ∧
      bqmEnergy triBqm triGroundAssign = -1 ∧
      ∀ b0 b1 b2 : Bool,
        -1 ≤ bqmEnergy triBqm fun v =>
          if v = 0 then spinVal b0 else if v = 1 then spinVal b1 else spinVal b2 := by
  refine ⟨rfl, ?_, ?_⟩
  · norm_num [bqmEnergy, triBqm, show triGroundAssign 0 = 1 from rfl,
      show triGroundAssign 1 = -1 from rfl, show triGroundAssign 2 = -1 from rfl]
  · intro b0 b1 b2
    cases b0 <;> cases b1 <;> cases b2 <;>
      norm_num [bqmEnergy, triBqm, spinVal]

end Savanna

namespace Greedy

/-- Claim C10: the seed validation of `SteepestDescentSolver.sample`
raises `TypeError` exactly for a seed that is neither `None` nor an
integer, `ValueError` exactly for an integer outside `[0, 2^32 - 1]`,
and accepts exactly `None` and the integers inside that range. -/
theorem seedValidation_spec (seed : SeedArg) :
    (seedValidation seed = SeedCheck.typeError ↔ seed = SeedArg.other) ∧
    (seedValidation seed = SeedCheck.valueError ↔
      ∃ z, seed = SeedArg.int z ∧ (z < 0 ∨ 2 ^ 32 - 1 < z)) ∧
    (seedValidation seed = SeedCheck.ok ↔
      seed = SeedArg.none ∨ ∃ z, seed = SeedArg.int z ∧ 0 ≤ z ∧ z ≤ 2 ^ 32 - 1) := by
  rcases seed with _ | z | _
  · simp [seedValidation]
  · by_cases h : 0 ≤ z ∧ z ≤ 2 ^ 32 - 1
    · simp only [seedValidation, if_neg (not_not_intro h)]
      refine ⟨by simp, by simp; omega, by simp; omega⟩
    · simp only [seedValidation, if_pos h]
      refine ⟨by simp, by simp; omega, by simp; omega⟩
  · simp [seedValidation]

end Greedy

namespace Savanna

lemma zero_pivot_of_det_eq_zero {n : ℕ} (M : Matrix (Fin n) (Fin n) ℚ)
    (h : M.det = 0) : ∃ i, gauss M i i = 0 := by
  have habs : ∏ i, |gauss M i i| = 0 := by
    rw [← abs_det_eq_prod_pivots, h, abs_zero]
  rcases Finset.prod_eq_zero_iff.mp habs with ⟨i, _, hi⟩
  exact ⟨i, abs_eq_zero.mp hi⟩

lemma logsqrtdet_negInf_of_singular {n : ℕ} (M : Matrix (Fin n) (Fin n) ℚ)
    (h : M.det = 0) : logsqrtdet M = LogVal.negInf := by
  rw [logsqrtdet, if_pos (zero_pivot_of_det_eq_zero M h)]

lemma det_eq_zero_of_odd_skew {n : ℕ} (hodd : Odd n) (M : Matrix (Fin n) (Fin n) ℚ)
    (hskew : M.transpose = -M) : M.det = 0 := by
  have h1 : M.det = M.transpose.det := (Matrix.det_transpose M).symm
  rw [hskew, Matrix.det_neg, Fintype.card_fin, Odd.neg_one_pow hodd, neg_one_mul] at h1
  linarith

/-- Claim C2 (amended): on singular input — in particular every
skew-symmetric matrix of odd order — `logsqrtdet` raises no error and
silently returns the numeric floating-point value `-inf` (the log of a
zero pivot). -/
theorem logsqrtdet_odd_skew_returns_negInf {n : ℕ} (hodd : Odd n)
    (M : Matrix (Fin n) (Fin n) ℚ) (hskew : M.transpose = -M) :
    logsqrtdet M = LogVal.negInf :=
  logsqrtdet_negInf_of_singular M (det_eq_zero_of_odd_skew hodd M hskew)

/-- Witness for the amended C2, at the odd-order skew-symmetric `K3`. -/
theorem logsqrtdet_odd_skew_returns_negInf_witness :
    Odd 3 ∧ K3.transpose = -K3 ∧ logsqrtdet K3 = LogVal.negInf := by
  have hsk : K3.transpose = -K3 := by decide
  exact ⟨by decide, hsk, logsqrtdet_odd_skew_returns_negInf (by decide) K3 hsk⟩

/-- Claim C2 (counterexample): the singular skew-symmetric `K3` (odd
order, determinant zero) is not rejected: `logsqrtdet` terminates
normally and returns the numeric value `-inf` — its embedding has no
error outcome at all, mirroring the raise-free source code. -/
theorem logsqrtdet_singular_no_error :
    K3.det = 0 ∧ logsqrtdet K3 = LogVal.negInf := by
  have hdet : K3.det = 0 := by
    norm_num [K3, Matrix.det_fin_three]
  exact ⟨hdet, logsqrtdet_negInf_of_singular K3 hdet⟩

/-- Claim C3: `logsqrtdet` returns the symbolic value of
`0.5 * Σ log |U[i][i]|` over the partial-pivoting LU factor `U`, and
for nonsingular `K` that value is half the log of `|det K|`: the
product of the absolute pivots equals `|det K|` exactly, so
`0.5 * log |det K| = 0.5 * Σ log |U[i][i]|`. -/
theorem logsqrtdet_eq_half_log_abs_det {n : ℕ} (M : Matrix (Fin n) (Fin n) ℚ)
    (hdet : M.det ≠ 0) :
    logsqrtdet M = LogVal.halfLogOf |M.det| ∧
      (1 / 2 : ℝ) * Real.log |(M.det : ℝ)| =
        (1 / 2 : ℝ) * ∑ i, Real.log |((gauss M i i : ℚ) : ℝ)| := by
  have habs : |M.det| = ∏ i, |gauss M i i| := abs_det_eq_prod_pivots M
  have hpiv : ∀ i, gauss M i i ≠ 0 := by
    intro i h0
    apply hdet
    rw [← abs_eq_zero, habs]
    exact Finset.prod_eq_zero (Finset.mem_univ i) (by rw [h0, abs_zero])
  constructor
  · rw [logsqrtdet, if_neg]
    · rw [habs]
    · rintro ⟨i, hi⟩
      exact hpiv i hi
  · congr 1
    have hcast : |(M.det : ℝ)| = ∏ i, |((gauss M i i : ℚ) : ℝ)| := by
      rw [← Rat.cast_abs, habs]
      push_cast
      rfl
    rw [hcast,
      Real.log_prod _ _ fun i _ => abs_ne_zero.mpr (Rat.cast_ne_zero.mpr (hpiv i))]

/-- Witness for C3, at the nonsingular 2 × 2 skew matrix `M2`. -/
theorem logsqrtdet_eq_half_log_abs_det_witness :
    M2.det ≠ 0 ∧ logsqrtdet M2 = LogVal.halfLogOf |M2.det| := by
  have h : M2.det ≠ 0 := by norm_num [M2, Matrix.det_fin_two]
  exact ⟨h, (logsqrtdet_eq_half_log_abs_det M2 h).1⟩

end Savanna

namespace Savanna

/-- Claim C1: for a model with at least three variables, whenever the
orientation stage succeeds on the triangulated pipeline graph,
`log_partition_bqm` returns exactly `logsqrtdet(K)` minus the sum of
the `weight` attributes of all edges of the final oriented graph minus
the builder's offset (the subtrahend is returned exactly; the Pfaffian
term symbolically). -/
theorem log_partition_bqm_formula (bqm : BQM) (pos : List (ℕ × (ℤ × ℤ)))
    (h3 : 3 ≤ (bqmVariables bqm).length) (o : List Bool)
    (ho : odd_edge_orientation (pipelineGraph bqm pos) = Except.ok o) :
    log_partition_bqm bqm pos =
      Except.ok ⟨logsqrtdet (kasteleyn (pipelineGraph bqm pos) o),
                 edgeWeightSum (pipelineGraph bqm pos) + (bqm_to_multigraph bqm).2⟩ := by
  unfold log_partition_bqm
  rw [if_neg (by omega)]
  have hpg : plane_triangulate (withRotation (bqm_to_multigraph bqm).1 pos) =
      pipelineGraph bqm pos := rfl
  simp only []
  rw [hpg, ho]

/-- Witness for C1: the four-variable square model, on which the whole
pipeline succeeds. -/
theorem log_partition_bqm_formula_witness :
    3 ≤ (bqmVariables sqBqm).length ∧
      odd_edge_orientation (pipelineGraph sqBqm sqPos) = Except.ok sqOrient ∧
      log_partition_bqm sqBqm sqPos =
        Except.ok ⟨logsqrtdet (kasteleyn (pipelineGraph sqBqm sqPos) sqOrient),
                   edgeWeightSum (pipelineGraph sqBqm sqPos) + (bqm_to_multigraph sqBqm).2⟩ :=
  ⟨by decide, by decide,
    log_partition_bqm_formula sqBqm sqPos (by decide) sqOrient (by decide)⟩

end Savanna
